import Mathlib

/-!
Verification of the core reconciliation logic of a Terraform LDAP provider
(`internal/provider/ldap_entry_resource.go` and its shared helpers).

The embedding models:
* `stringSlicesEqual` — order-independent (multiset) comparison of attribute
  value lists, implemented in the source by sorting copies of both slices and
  comparing element-wise;
* the `Update` method — building the desired attribute map from the plan,
  optionally merging the write-only payload when the `attributes_wo_version`
  token changed, running the `unicodePwd` codec, emitting `Replace`/`Delete`
  modify operations against the state attribute map, and persisting the plan
  only when no network call was needed or the modify succeeded;
* the `Create` method — merging plan and write-only attributes, running the
  codec, and issuing an add request (empty-valued attributes skipped);
* `ProcessUnicodePwd` / `encodeUnicodePwd` — the Active Directory password
  codec (quote-wrap then transcode to UTF-16LE); the external `x/text`
  transcoder is a parameter `enc`, with `utf16leEncoder` as its reference
  semantics on valid Unicode input;
* `MarshalLdapResults` — folding an LDAP search response into attribute maps,
  normalizing requested-but-missing attributes to empty lists.

Go maps are modelled as association lists (`AttrMap`) with `lookupAttr` /
`insertAttr` giving Go's lookup/overwrite semantics; iteration order is the
list order (the proved properties are all iteration-order independent).
-/

/-- Byte/code-point lexicographic comparison on character lists; this is the
ordering `sort.Strings` uses (for valid UTF-8, byte order and code-point order
agree). -/
def charListLe : List Char → List Char → Bool
  | [], _ => true
  | _ :: _, [] => false
  | a :: as, b :: bs =>
    if a.val.toNat < b.val.toNat then true
    else if b.val.toNat < a.val.toNat then false
    else charListLe as bs

/-- String comparison used for sorting attribute values, as `sort.Strings`. -/
def strLe (a b : String) : Bool := charListLe a.data b.data

/-- Sorting a copied slice of strings ascending (`sort.Strings`). -/
def sortStrings (a : List String) : List String :=
  List.insertionSort (fun x y => strLe x y = true) a

/-- Order-independent comparison of two value lists, from `stringSlicesEqual`:
reject on differing lengths, otherwise sort copies of both and compare
element-wise. -/
def stringSlicesEqual (a b : List String) : Bool :=
  if a.length = b.length then sortStrings a == sortStrings b else false

instance : IsTotal String (fun x y => strLe x y = true) := by
  constructor
  intro a b
  suffices h : ∀ as bs : List Char, charListLe as bs = true ∨ charListLe bs as = true from
    h a.data b.data
  intro as
  induction as with
  | nil => intro bs; left; rfl
  | cons a as ih =>
    intro bs
    cases bs with
    | nil => right; rfl
    | cons b bs =>
      rcases Nat.lt_trichotomy a.val.toNat b.val.toNat with h | h | h
      · left; simp [charListLe, h]
      · rcases ih bs with h2 | h2
        · left; simp [charListLe, h, h2]
        · right; simp [charListLe, h.symm, h2]
      · right; simp [charListLe, h]

instance : IsTrans String (fun x y => strLe x y = true) := by
  constructor
  intro a b c
  suffices h : ∀ as bs cs : List Char, charListLe as bs = true →
      charListLe bs cs = true → charListLe as cs = true from h a.data b.data c.data
  intro as
  induction as with
  | nil => intro bs cs _ _; rfl
  | cons a as ih =>
    intro bs cs h1 h2
    cases bs with
    | nil => simp [charListLe] at h1
    | cons b bs =>
      cases cs with
      | nil => simp [charListLe] at h2
      | cons c cs =>
        simp only [charListLe] at h1 h2 ⊢
        rcases Nat.lt_trichotomy a.val.toNat b.val.toNat with hab | hab | hab
        · rcases Nat.lt_trichotomy b.val.toNat c.val.toNat with hbc | hbc | hbc
          · have hac : a.val.toNat < c.val.toNat := by omega
            simp [hac]
          · have hac : a.val.toNat < c.val.toNat := by omega
            simp [hac]
          · have hb1 : ¬ b.val.toNat < c.val.toNat := by omega
            simp [hb1, hbc] at h2
        · rcases Nat.lt_trichotomy b.val.toNat c.val.toNat with hbc | hbc | hbc
          · have hac : a.val.toNat < c.val.toNat := by omega
            simp [hac]
          · have hac : a.val.toNat = c.val.toNat := by omega
            have h1' : charListLe as bs = true := by
              simp [hab, Nat.lt_irrefl] at h1
              exact h1
            have h2' : charListLe bs cs = true := by
              simp [hbc, Nat.lt_irrefl] at h2
              exact h2
            simp [hac, Nat.lt_irrefl]
            exact ih bs cs h1' h2'
          · have hb1 : ¬ b.val.toNat < c.val.toNat := by omega
            simp [hb1, hbc] at h2
        · have ha1 : ¬ a.val.toNat < b.val.toNat := by omega
          simp [ha1, hab] at h1

instance : IsAntisymm String (fun x y => strLe x y = true) := by
  constructor
  intro a b h1 h2
  suffices h : ∀ as bs : List Char, charListLe as bs = true →
      charListLe bs as = true → as = bs from congrArg String.mk (h a.data b.data h1 h2)
  intro as
  induction as with
  | nil =>
    intro bs _ g2
    cases bs with
    | nil => rfl
    | cons b bs => simp [charListLe] at g2
  | cons a as ih =>
    intro bs g1 g2
    cases bs with
    | nil => simp [charListLe] at g1
    | cons b bs =>
      simp only [charListLe] at g1 g2
      rcases Nat.lt_trichotomy a.val.toNat b.val.toNat with hab | hab | hab
      · simp [hab, Nat.lt_asymm hab] at g2
      · have hc : a = b := Char.ext (UInt32.ext hab)
        simp [hab, Nat.lt_irrefl] at g1 g2
        rw [hc, ih bs g1 g2]
      · simp [hab, Nat.lt_asymm hab] at g1

/-- A Go `map[string][]string` modelled as an association list with unique keys
maintained by `insertAttr`. -/
abbrev AttrMap := List (String × List String)

/-- Go map lookup `m[k]`. -/
def lookupAttr : AttrMap → String → Option (List String)
  | [], _ => none
  | (k', v) :: rest, k => if k' = k then some v else lookupAttr rest k

/-- Go map assignment `m[k] = v`: overwrite the existing entry or append. -/
def insertAttr : AttrMap → String → List String → AttrMap
  | [], k, v => [(k, v)]
  | (k', v') :: rest, k, v =>
    if k' = k then (k', v) :: rest else (k', v') :: insertAttr rest k v

/-- Merging one attribute map into another, entry by entry, as the second call
to `unmarshalTerraformAttributes` does when it reuses the `attributes` map. -/
def mergeAttrs (base extra : AttrMap) : AttrMap :=
  extra.foldl (fun acc kv => insertAttr acc kv.1 kv.2) base

/-- The external UTF-16 transcoder (`golang.org/x/text`); it may fail with an
encoding error carried as a message string. -/
abbrev EncFun := String → Except String String

/-- From `encodeUnicodePwd`: wrap the password in double quotes and hand it to
the UTF-16LE transcoder. -/
def encodeUnicodePwd (enc : EncFun) (password : String) : Except String String :=
  enc ("\"" ++ password ++ "\"")

/-- From `ProcessUnicodePwd`: when the map holds a non-empty `unicodePwd`
value list, encode its first value and overwrite the list with the single
encoded result; otherwise leave the map untouched. A transcoding failure is
propagated as an error. -/
def ProcessUnicodePwd (enc : EncFun) (attrs : AttrMap) : Except String AttrMap :=
  match lookupAttr attrs "unicodePwd" with
  | some (v :: _) =>
    match encodeUnicodePwd enc v with
    | Except.ok encoded => Except.ok (insertAttr attrs "unicodePwd" [encoded])
    | Except.error e => Except.error e
  | _ => Except.ok attrs

/-- UTF-16 code units of one character (surrogate pair above U+FFFF). -/
def utf16CodeUnits (c : Char) : List Nat :=
  if c.val.toNat < 0x10000 then [c.val.toNat]
  else [0xD800 + (c.val.toNat - 0x10000) / 0x400, 0xDC00 + (c.val.toNat - 0x10000) % 0x400]

/-- UTF-16 code units of a character list. -/
def utf16Units : List Char → List Nat
  | [] => []
  | c :: cs => utf16CodeUnits c ++ utf16Units cs

/-- Little-endian byte serialization of a code-unit list. -/
def utf16leOfUnits : List Nat → List Nat
  | [] => []
  | u :: us => u % 256 :: u / 256 % 256 :: utf16leOfUnits us

/-- UTF-16LE bytes of a string. -/
def utf16leBytes (s : String) : List Nat := utf16leOfUnits (utf16Units s.data)

/-- A byte sequence represented as a Go string (one char per byte). -/
def byteStr (bs : List Nat) : String := String.mk (bs.map (fun b => Char.ofNat (b % 256)))

/-- Reference semantics of the external UTF-16LE transcoder on valid Unicode
input: it succeeds and returns the UTF-16LE byte string. -/
def utf16leEncoder : EncFun := fun s => Except.ok (byteStr (utf16leBytes s))

/-- An LDAP modify operation as issued through `modifyReq.Replace` /
`modifyReq.Delete`. -/
inductive LdapOp
  | replace (name : String) (values : List String)
  | delete (name : String)
deriving DecidableEq

/-- The attribute name an operation acts on. -/
def opName : LdapOp → String
  | LdapOp.replace k _ => k
  | LdapOp.delete k => k

/-- The per-attribute change test in `Update`'s first loop:
`!exists || !stringSlicesEqual(currentValues, newValues)`. -/
def changedAttr (current : AttrMap) (k : String) (newValues : List String) : Bool :=
  match lookupAttr current k with
  | none => true
  | some currentValues => !stringSlicesEqual currentValues newValues

/-- The operation `Update` emits for a changed attribute: `Delete` when the new
value list is empty (servers reject `Replace` with no values), else `Replace`. -/
def emitOp (k : String) (newValues : List String) : LdapOp :=
  if newValues.isEmpty then LdapOp.delete k else LdapOp.replace k newValues

/-- The first loop of `Update`: for every desired attribute that is absent from
state or not set-equal, emit a replace/delete. -/
def replaceOrDeleteOps (current : AttrMap) : AttrMap → List LdapOp
  | [] => []
  | (k, newValues) :: rest =>
    if changedAttr current k newValues then
      emitOp k newValues :: replaceOrDeleteOps current rest
    else replaceOrDeleteOps current rest

/-- The second loop of `Update`: delete every state attribute that is no longer
present in the desired map. -/
def removeOps (attributes : AttrMap) : AttrMap → List LdapOp
  | [] => []
  | (k, _) :: rest =>
    if (lookupAttr attributes k).isNone then LdapOp.delete k :: removeOps attributes rest
    else removeOps attributes rest

/-- All modify operations `Update` accumulates on the request. -/
def updateOps (attributes current : AttrMap) : List LdapOp :=
  replaceOrDeleteOps current attributes ++ removeOps attributes current

/-- The write-once gate: `versionChanged := !plan.AttributesWOVer.Equal(state.AttributesWOVer)`.
A Terraform null Int64 is `none`; two nulls compare equal. -/
def versionChanged (planVer stateVer : Option Int) : Bool := !(planVer == stateVer)

/-- The inputs `Update` reads: plan, state and the write-only configuration. -/
structure UpdateInput where
  planAttrs : AttrMap
  planVer : Option Int
  stateAttrs : AttrMap
  stateVer : Option Int
  configWO : Option AttrMap
deriving DecidableEq

/-- What the framework persists for the resource after a cycle. -/
structure Persisted where
  attrs : AttrMap
  ver : Option Int
deriving DecidableEq

/-- Observable outcome of one `Update` cycle: the modify operations built,
whether the modify RPC was issued, whether the cycle aborted on an encoding
error, and the state the framework keeps afterwards. -/
structure UpdateResult where
  ops : List LdapOp
  modifyCalled : Bool
  aborted : Bool
  persisted : Persisted
deriving DecidableEq

/-- The desired attribute map `Update` diffs against state: the plan
attributes, with the write-only payload merged in and the `unicodePwd` codec
run only when the version token changed and a write-only map is configured. -/
def updateDesiredAttrs (enc : EncFun) (inp : UpdateInput) : Except String AttrMap :=
  match inp.configWO with
  | some wo =>
    if versionChanged inp.planVer inp.stateVer then
      ProcessUnicodePwd enc (mergeAttrs inp.planAttrs wo)
    else Except.ok inp.planAttrs
  | none => Except.ok inp.planAttrs

/-- The `Update` method: build the desired map, diff it against state, issue a
single modify call only when there are changes, and persist the plan unless the
cycle aborted or the modify failed (then the prior state is kept). -/
def ldapUpdate (enc : EncFun) (inp : UpdateInput) (modifySucceeds : Bool) : UpdateResult :=
  match updateDesiredAttrs enc inp with
  | Except.error _ => ⟨[], false, true, ⟨inp.stateAttrs, inp.stateVer⟩⟩
  | Except.ok attributes =>
    let ops := updateOps attributes inp.stateAttrs
    ⟨ops, !ops.isEmpty, false,
      if ops.isEmpty || modifySucceeds then ⟨inp.planAttrs, inp.planVer⟩
      else ⟨inp.stateAttrs, inp.stateVer⟩⟩

/-- Observable outcome of one `Create` cycle. -/
structure CreateResult where
  addCalled : Bool
  aborted : Bool
  addAttrs : AttrMap
deriving DecidableEq

/-- The attribute map `Create` sends: plan attributes merged with the whole
write-only payload (when configured), with the `unicodePwd` codec applied. -/
def createDesiredAttrs (enc : EncFun) (planAttrs : AttrMap) (configWO : Option AttrMap) :
    Except String AttrMap :=
  match configWO with
  | some wo => ProcessUnicodePwd enc (mergeAttrs planAttrs wo)
  | none => ProcessUnicodePwd enc planAttrs

/-- The `Create` method: on an encoding error, abort before any network call;
otherwise issue the add request, skipping attributes with empty value lists. -/
def ldapCreate (enc : EncFun) (planAttrs : AttrMap) (configWO : Option AttrMap) : CreateResult :=
  match createDesiredAttrs enc planAttrs configWO with
  | Except.error _ => ⟨false, true, []⟩
  | Except.ok attributes => ⟨true, false, attributes.filter (fun kv => !kv.2.isEmpty)⟩

/-- Folding one search-result entry's attributes into a map, as the first loop
of `MarshalLdapResults` (later occurrences of a name overwrite earlier ones). -/
def buildEntryMap (entryAttrs : List (String × List String)) : AttrMap :=
  entryAttrs.foldl (fun acc kv => insertAttr acc kv.1 kv.2) []

/-- The normalization loop of `MarshalLdapResults`: every requested attribute
missing from the response is inserted with an empty value list. -/
def fillRequested (acc : AttrMap) : List String → AttrMap
  | [] => acc
  | ra :: rest =>
    if (lookupAttr acc ra).isSome then fillRequested acc rest
    else fillRequested (insertAttr acc ra []) rest

/-- Per-entry attribute marshalling of `MarshalLdapResults`. -/
def marshalEntryAttrs (entryAttrs : List (String × List String))
    (requested : List String) : AttrMap :=
  fillRequested (buildEntryMap entryAttrs) requested

/-- The diagnostic-detail extraction on `MarshalLdapResults`'s error branch:
the source indexes `diags[len(diags)]`; an out-of-range index is `none`
(a runtime panic in Go). -/
def extractDiagDetail (diags : List String) : Option String :=
  diags[diags.length]?

/-- Result of `MarshalLdapResults`: the marshalled entries, an error value, or
a runtime panic from an out-of-range index. -/
inductive MarshalOutcome
  | okEntries (entries : List AttrMap)
  | failed (msg : String)
  | panicked
deriving DecidableEq

/-- The entry loop of `MarshalLdapResults`; `conv` is the external
`types.MapValueFrom` conversion, returning error diagnostics on failure. -/
def marshalResultsGo (conv : AttrMap → Except (List String) AttrMap) (requested : List String)
    (acc : List AttrMap) : List (List (String × List String)) → MarshalOutcome
  | [] => MarshalOutcome.okEntries acc.reverse
  | e :: rest =>
    match conv (marshalEntryAttrs e requested) with
    | Except.ok m => marshalResultsGo conv requested (m :: acc) rest
    | Except.error diags =>
      match extractDiagDetail diags with
      | some d => MarshalOutcome.failed d
      | none => MarshalOutcome.panicked

/-- `MarshalLdapResults`: marshal every entry of a search result, turning the
first conversion failure into an error built from its diagnostics. -/
def MarshalLdapResults (conv : AttrMap → Except (List String) AttrMap)
    (entries : List (List (String × List String))) (requested : List String) : MarshalOutcome :=
  marshalResultsGo conv requested [] entries

/-- Unwrap a marshalling step's result map (empty on error); used to state
concrete evaluations. -/
def exceptAttrs (e : Except String AttrMap) : AttrMap :=
  match e with
  | Except.ok m => m
  | Except.error _ => []

/-- Looking up the key just inserted yields the inserted value. -/
theorem lookupAttr_insertAttr_self (m : AttrMap) (k : String) (v : List String) :
    lookupAttr (insertAttr m k v) k = some v := by
  induction m with
  | nil => simp [insertAttr, lookupAttr]
  | cons kv rest ih =>
    obtain ⟨k', v'⟩ := kv
    by_cases h : k' = k
    · simp [insertAttr, lookupAttr, h]
    · simp [insertAttr, lookupAttr, h, ih]

/-- Inserting one key leaves lookups of other keys unchanged. -/
theorem lookupAttr_insertAttr_ne (m : AttrMap) (k' k : String) (v : List String)
    (h : k' ≠ k) : lookupAttr (insertAttr m k' v) k = lookupAttr m k := by
  induction m with
  | nil => simp [insertAttr, lookupAttr, h]
  | cons kv rest ih =>
    obtain ⟨k0, v0⟩ := kv
    by_cases h0 : k0 = k'
    · subst h0
      simp [insertAttr, lookupAttr, h]
    · by_cases h1 : k0 = k
      · simp [insertAttr, lookupAttr, h0, h1, Ne.symm h]
      · simp [insertAttr, lookupAttr, h0, h1, ih]

/-- A pair in the map makes its key's lookup succeed. -/
theorem lookupAttr_isSome_of_mem (m : AttrMap) (k : String) (vs : List String)
    (h : (k, vs) ∈ m) : (lookupAttr m k).isSome = true := by
  induction m with
  | nil => cases h
  | cons kv rest ih =>
    obtain ⟨k0, v0⟩ := kv
    rcases List.mem_cons.mp h with heq | hmem
    · cases heq
      simp [lookupAttr]
    · by_cases h0 : k0 = k
      · simp [lookupAttr, h0]
      · simp [lookupAttr, h0]
        exact ih hmem

/-- A successful lookup comes from a pair in the map. -/
theorem mem_of_lookupAttr_eq_some (m : AttrMap) (k : String) (vs : List String)
    (h : lookupAttr m k = some vs) : (k, vs) ∈ m := by
  induction m with
  | nil => cases h
  | cons kv rest ih =>
    obtain ⟨k0, v0⟩ := kv
    by_cases h0 : k0 = k
    · subst h0
      simp [lookupAttr] at h
      subst h
      exact List.mem_cons_self _ _
    · simp [lookupAttr, h0] at h
      exact List.mem_cons_of_mem _ (ih h)

/-- A desired pair whose change test fires contributes its operation to the
first update loop. -/
theorem emitOp_mem_replaceOrDeleteOps (current attrs : AttrMap) (k : String) (vs : List String)
    (hmem : (k, vs) ∈ attrs) (hch : changedAttr current k vs = true) :
    emitOp k vs ∈ replaceOrDeleteOps current attrs := by
  induction attrs with
  | nil => cases hmem
  | cons kv rest ih =>
    obtain ⟨k0, v0⟩ := kv
    rcases List.mem_cons.mp hmem with heq | hmem'
    · cases heq
      simp [replaceOrDeleteOps, hch]
    · by_cases hch0 : changedAttr current k0 v0 = true
      · simp [replaceOrDeleteOps, hch0]
        right
        exact ih hmem'
      · simp only [replaceOrDeleteOps, Bool.not_eq_true] at hch0 ⊢
        rw [hch0]
        simp only [Bool.false_eq_true, if_false]
        exact ih hmem'

/-- The first update loop never emits a replace with an empty value list: an
empty changed list becomes a delete instead. -/
theorem replace_empty_not_mem_replaceOrDeleteOps (current attrs : AttrMap) (name : String) :
    LdapOp.replace name [] ∉ replaceOrDeleteOps current attrs := by
  induction attrs with
  | nil => simp [replaceOrDeleteOps]
  | cons kv rest ih =>
    obtain ⟨k0, v0⟩ := kv
    by_cases hch : changedAttr current k0 v0 = true
    · simp only [replaceOrDeleteOps, hch, if_true, List.mem_cons]
      rintro (heq | hmem)
      · unfold emitOp at heq
        by_cases he : v0.isEmpty
        · simp [he] at heq
        · simp [he] at heq
          obtain ⟨-, hv⟩ := heq
          subst hv
          simp [List.isEmpty] at he
      · exact ih hmem
    · simp only [replaceOrDeleteOps, Bool.not_eq_true] at hch ⊢
      rw [hch]
      simp only [Bool.false_eq_true, if_false]
      exact ih

/-- The second update loop only emits deletes. -/
theorem removeOps_all_deletes (attributes current : AttrMap) (op : LdapOp)
    (h : op ∈ removeOps attributes current) : ∃ n, op = LdapOp.delete n := by
  induction current with
  | nil => cases h
  | cons kv rest ih =>
    obtain ⟨k0, v0⟩ := kv
    by_cases hn : (lookupAttr attributes k0).isNone
    · simp only [removeOps, hn, if_true, List.mem_cons] at h
      rcases h with heq | hmem
      · exact ⟨k0, heq⟩
      · exact ih hmem
    · simp only [removeOps, hn, Bool.false_eq_true, if_false] at h
      exact ih h

/-- When no desired pair carries the key, the first update loop emits no
operation named after it. -/
theorem replaceOrDeleteOps_name_ne_of_not_memKey (current attrs : AttrMap) (k : String)
    (h : ∀ kv ∈ attrs, kv.1 ≠ k) :
    ∀ op ∈ replaceOrDeleteOps current attrs, opName op ≠ k := by
  induction attrs with
  | nil => intro op hop; cases hop
  | cons kv rest ih =>
    obtain ⟨k0, v0⟩ := kv
    have hk0 : k0 ≠ k := h (k0, v0) (List.mem_cons_self _ _)
    have hrest : ∀ kv ∈ rest, kv.1 ≠ k := fun kv hkv => h kv (List.mem_cons_of_mem _ hkv)
    intro op hop
    by_cases hch : changedAttr current k0 v0 = true
    · simp only [replaceOrDeleteOps, hch, if_true, List.mem_cons] at hop
      rcases hop with heq | hmem
      · subst heq
        unfold emitOp
        by_cases he : v0.isEmpty <;> simp [he, opName, hk0]
      · exact ih hrest op hmem
    · simp only [replaceOrDeleteOps, Bool.not_eq_true] at hch
      rw [replaceOrDeleteOps, hch] at hop
      simp only [Bool.false_eq_true, if_false] at hop
      exact ih hrest op hop

/-- With unique keys, a desired pair whose change test does not fire
contributes no operation named after it to the first update loop. -/
theorem replaceOrDeleteOps_name_ne_of_unchanged (current attrs : AttrMap) (k : String)
    (vs : List String) (hnodup : (attrs.map Prod.fst).Nodup) (hmem : (k, vs) ∈ attrs)
    (hch : changedAttr current k vs = false) :
    ∀ op ∈ replaceOrDeleteOps current attrs, opName op ≠ k := by
  induction attrs with
  | nil => intro op hop; cases hop
  | cons kv rest ih =>
    obtain ⟨k0, v0⟩ := kv
    simp only [List.map_cons, List.nodup_cons] at hnodup
    obtain ⟨hk0notin, hnodup'⟩ := hnodup
    rcases List.mem_cons.mp hmem with heq | hmem'
    · cases heq
      intro op hop
      rw [replaceOrDeleteOps, hch] at hop
      simp only [Bool.false_eq_true, if_false] at hop
      refine replaceOrDeleteOps_name_ne_of_not_memKey current rest k ?_ op hop
      intro kv hkv hk
      exact hk0notin (hk ▸ List.mem_map_of_mem Prod.fst hkv)
    · have hk0 : k0 ≠ k := by
        intro hk
        exact hk0notin (hk ▸ List.mem_map_of_mem Prod.fst hmem')
      intro op hop
      by_cases hch0 : changedAttr current k0 v0 = true
      · simp only [replaceOrDeleteOps, hch0, if_true, List.mem_cons] at hop
        rcases hop with heq | hmem2
        · subst heq
          unfold emitOp
          by_cases he : v0.isEmpty <;> simp [he, opName, hk0]
        · exact ih hnodup' hmem' op hmem2
      · simp only [replaceOrDeleteOps, Bool.not_eq_true] at hch0
        rw [replaceOrDeleteOps, hch0] at hop
        simp only [Bool.false_eq_true, if_false] at hop
        exact ih hnodup' hmem' op hop

/-- A key still present in the desired map is never deleted by the second
update loop. -/
theorem removeOps_name_ne_of_isSome (attributes current : AttrMap) (k : String)
    (h : (lookupAttr attributes k).isSome = true) :
    ∀ op ∈ removeOps attributes current, opName op ≠ k := by
  induction current with
  | nil => intro op hop; cases hop
  | cons kv rest ih =>
    obtain ⟨k0, v0⟩ := kv
    intro op hop
    by_cases hn : (lookupAttr attributes k0).isNone
    · simp only [removeOps, hn, if_true, List.mem_cons] at hop
      rcases hop with heq | hmem
      · subst heq
        simp only [opName]
        intro hk
        rw [hk] at hn
        rw [Option.isNone_iff_eq_none] at hn
        rw [hn] at h
        cases h
      · exact ih op hmem
    · simp only [removeOps, hn, Bool.false_eq_true, if_false] at hop
      exact ih op hop

/-- A state key absent from the desired map is deleted by the second update
loop. -/
theorem delete_mem_removeOps (attributes current : AttrMap) (k : String) (vs : List String)
    (hmem : (k, vs) ∈ current) (habs : lookupAttr attributes k = none) :
    LdapOp.delete k ∈ removeOps attributes current := by
  induction current with
  | nil => cases hmem
  | cons kv rest ih =>
    obtain ⟨k0, v0⟩ := kv
    rcases List.mem_cons.mp hmem with heq | hmem'
    · cases heq
      simp [removeOps, habs]
    · by_cases hn : (lookupAttr attributes k0).isNone
      · simp only [removeOps, hn, if_true, List.mem_cons]
        right
        exact ih hmem'
      · simp only [removeOps, hn, Bool.false_eq_true, if_false]
        exact ih hmem'

/-- When every desired pair passes the set-equality test against state, the
first update loop is empty. -/
theorem replaceOrDeleteOps_eq_nil (current attrs : AttrMap)
    (h : attrs.all (fun kv => !changedAttr current kv.1 kv.2) = true) :
    replaceOrDeleteOps current attrs = [] := by
  induction attrs with
  | nil => rfl
  | cons kv rest ih =>
    obtain ⟨k0, v0⟩ := kv
    simp only [List.all_cons, Bool.and_eq_true, Bool.not_eq_true'] at h
    rw [replaceOrDeleteOps, h.1]
    simp only [Bool.false_eq_true, if_false]
    exact ih (by simpa using h.2)

/-- When every state key is still present in the desired map, the second
update loop is empty. -/
theorem removeOps_eq_nil (attributes current : AttrMap)
    (h : current.all (fun kv => (lookupAttr attributes kv.1).isSome) = true) :
    removeOps attributes current = [] := by
  induction current with
  | nil => rfl
  | cons kv rest ih =>
    obtain ⟨k0, v0⟩ := kv
    simp only [List.all_cons, Bool.and_eq_true] at h
    rw [removeOps]
    have hn : (lookupAttr attributes k0).isNone = false := by
      cases hl : lookupAttr attributes k0
      · rw [hl] at h
        cases h.1
      · rfl
    rw [hn]
    simp only [Bool.false_eq_true, if_false]
    exact ih (by simpa using h.2)

/-- Unfolding `ldapUpdate` on the non-aborting path. -/
theorem ldapUpdate_eq_of_ok (enc : EncFun) (inp : UpdateInput) (m : Bool) (attributes : AttrMap)
    (h : updateDesiredAttrs enc inp = Except.ok attributes) :
    ldapUpdate enc inp m =
      ⟨updateOps attributes inp.stateAttrs, !(updateOps attributes inp.stateAttrs).isEmpty, false,
        if (updateOps attributes inp.stateAttrs).isEmpty || m then ⟨inp.planAttrs, inp.planVer⟩
        else ⟨inp.stateAttrs, inp.stateVer⟩⟩ := by
  unfold ldapUpdate
  rw [h]

/-- When the version token is unchanged, the write-only payload is ignored and
the desired map is exactly the plan's attribute map. -/
theorem updateDesiredAttrs_of_version_eq (enc : EncFun) (inp : UpdateInput)
    (h : versionChanged inp.planVer inp.stateVer = false) :
    updateDesiredAttrs enc inp = Except.ok inp.planAttrs := by
  unfold updateDesiredAttrs
  cases inp.configWO with
  | none => rfl
  | some wo => rw [h]; rfl

/-- Claim C2: `stringSlicesEqual` returns true exactly when the two value
lists are permutations of each other — the same multiset of values regardless
of order, duplicates counted, case-sensitive. In particular it is true on any
permutation of a list, and on a pair of empty lists. -/
theorem stringSlicesEqual_iff_perm (a b : List String) :
    stringSlicesEqual a b = true ↔ a.Perm b := by
  unfold stringSlicesEqual
  by_cases h : a.length = b.length
  · simp only [h, if_true, beq_iff_eq, sortStrings]
    constructor
    · intro hs
      exact (List.perm_insertionSort _ a).symm.trans (hs ▸ List.perm_insertionSort _ b)
    · intro hp
      apply List.eq_of_perm_of_sorted (r := fun x y => strLe x y = true)
      · exact (List.perm_insertionSort _ a).trans (hp.trans (List.perm_insertionSort _ b).symm)
      · exact List.sorted_insertionSort _ a
      · exact List.sorted_insertionSort _ b
  · simp only [h, if_false]
    constructor
    · intro hs
      exact absurd hs (by simp)
    · intro hp
      exact absurd hp.length_eq h

/-- Witness for C2: a concrete permutation with duplicates compares equal, the
empty lists compare equal, and a case-variant pair does not. -/
theorem stringSlicesEqual_iff_perm_witness :
    stringSlicesEqual ["a", "a", "b"] ["b", "a", "a"] = true ∧
      stringSlicesEqual ([] : List String) [] = true ∧
      stringSlicesEqual ["a", "B"] ["A", "b"] = false :=
  ⟨(stringSlicesEqual_iff_perm ["a", "a", "b"] ["b", "a", "a"]).mpr (by decide),
    (stringSlicesEqual_iff_perm [] []).mpr (List.Perm.refl _),
    by
      have h := stringSlicesEqual_iff_perm ["a", "B"] ["A", "b"]
      cases hr : stringSlicesEqual ["a", "B"] ["A", "b"]
      · rfl
      · exact absurd (h.mp hr) (by decide)⟩

/-- Claim C1: for every attribute name in the desired map built by `Update`,
if its value list is absent from the state map or not set-equal to the state
values, the emitted operation is `Replace(name, values)` for a non-empty list
and `Delete(name)` — never `Replace(name, [])` — for an empty list; when the
name is present with set-equal values, no operation is emitted for it. -/
theorem update_attr_diff_ops (enc : EncFun) (inp : UpdateInput) (m : Bool)
    (attributes : AttrMap) (k : String) (vs : List String)
    (hattrs : updateDesiredAttrs enc inp = Except.ok attributes)
    (hnodup : (attributes.map Prod.fst).Nodup)
    (hmem : (k, vs) ∈ attributes) :
    (changedAttr inp.stateAttrs k vs = true →
      (vs ≠ [] → LdapOp.replace k vs ∈ (ldapUpdate enc inp m).ops) ∧
      (vs = [] → LdapOp.delete k ∈ (ldapUpdate enc inp m).ops) ∧
      LdapOp.replace k [] ∉ (ldapUpdate enc inp m).ops) ∧
    (changedAttr inp.stateAttrs k vs = false →
      ∀ op ∈ (ldapUpdate enc inp m).ops, opName op ≠ k) := by
  have hops : (ldapUpdate enc inp m).ops = updateOps attributes inp.stateAttrs := by
    rw [ldapUpdate_eq_of_ok enc inp m attributes hattrs]
  rw [hops]
  constructor
  · intro hch
    refine ⟨?_, ?_, ?_⟩
    · intro hne
      have hemit : emitOp k vs = LdapOp.replace k vs := by
        unfold emitOp
        have : vs.isEmpty = false := by
          cases vs
          · exact absurd rfl hne
          · rfl
        simp [this]
      unfold updateOps
      exact List.mem_append_left _
        (hemit ▸ emitOp_mem_replaceOrDeleteOps inp.stateAttrs attributes k vs hmem hch)
    · intro hnil
      subst hnil
      have hemit : emitOp k [] = LdapOp.delete k := by unfold emitOp; rfl
      unfold updateOps
      exact List.mem_append_left _
        (hemit ▸ emitOp_mem_replaceOrDeleteOps inp.stateAttrs attributes k [] hmem hch)
    · unfold updateOps
      intro hin
      rcases List.mem_append.mp hin with h1 | h2
      · exact replace_empty_not_mem_replaceOrDeleteOps inp.stateAttrs attributes k h1
      · obtain ⟨n, hn⟩ := removeOps_all_deletes attributes inp.stateAttrs _ h2
        cases hn
  · intro hch op hop
    unfold updateOps at hop
    rcases List.mem_append.mp hop with h1 | h2
    · exact replaceOrDeleteOps_name_ne_of_unchanged inp.stateAttrs attributes k vs
        hnodup hmem hch op h1
    · exact removeOps_name_ne_of_isSome attributes inp.stateAttrs k
        (lookupAttr_isSome_of_mem attributes k vs hmem) op h2

/-- Witness for C1: a changed multi-valued attribute yields a replace, an
emptied attribute yields a delete and no empty replace, and an unchanged
attribute yields no operation at all. -/
theorem update_attr_diff_ops_witness :
    LdapOp.replace "mail" ["a@x", "b@x"] ∈
      (ldapUpdate utf16leEncoder
        ⟨[("mail", ["a@x", "b@x"]), ("description", []), ("cn", ["t"])], none,
          [("mail", ["a@x"]), ("description", ["old"]), ("cn", ["t"])], none, none⟩ true).ops ∧
    LdapOp.delete "description" ∈
      (ldapUpdate utf16leEncoder
        ⟨[("mail", ["a@x", "b@x"]), ("description", []), ("cn", ["t"])], none,
          [("mail", ["a@x"]), ("description", ["old"]), ("cn", ["t"])], none, none⟩ true).ops ∧
    LdapOp.replace "description" [] ∉
      (ldapUpdate utf16leEncoder
        ⟨[("mail", ["a@x", "b@x"]), ("description", []), ("cn", ["t"])], none,
          [("mail", ["a@x"]), ("description", ["old"]), ("cn", ["t"])], none, none⟩ true).ops ∧
    (∀ op ∈ (ldapUpdate utf16leEncoder
        ⟨[("mail", ["a@x", "b@x"]), ("description", []), ("cn", ["t"])], none,
          [("mail", ["a@x"]), ("description", ["old"]), ("cn", ["t"])], none, none⟩ true).ops,
      opName op ≠ "cn") :=
  ⟨((update_attr_diff_ops utf16leEncoder
      ⟨[("mail", ["a@x", "b@x"]), ("description", []), ("cn", ["t"])], none,
        [("mail", ["a@x"]), ("description", ["old"]), ("cn", ["t"])], none, none⟩ true
      [("mail", ["a@x", "b@x"]), ("description", []), ("cn", ["t"])] "mail" ["a@x", "b@x"]
      rfl (by decide) (by decide)).1 (by decide)).1 (by decide),
    ((update_attr_diff_ops utf16leEncoder
      ⟨[("mail", ["a@x", "b@x"]), ("description", []), ("cn", ["t"])], none,
        [("mail", ["a@x"]), ("description", ["old"]), ("cn", ["t"])], none, none⟩ true
      [("mail", ["a@x", "b@x"]), ("description", []), ("cn", ["t"])] "description" []
      rfl (by decide) (by decide)).1 (by decide)).2.1 rfl,
    ((update_attr_diff_ops utf16leEncoder
      ⟨[("mail", ["a@x", "b@x"]), ("description", []), ("cn", ["t"])], none,
        [("mail", ["a@x"]), ("description", ["old"]), ("cn", ["t"])], none, none⟩ true
      [("mail", ["a@x", "b@x"]), ("description", []), ("cn", ["t"])] "description" []
      rfl (by decide) (by decide)).1 (by decide)).2.2,
    (update_attr_diff_ops utf16leEncoder
      ⟨[("mail", ["a@x", "b@x"]), ("description", []), ("cn", ["t"])], none,
        [("mail", ["a@x"]), ("description", ["old"]), ("cn", ["t"])], none, none⟩ true
      [("mail", ["a@x", "b@x"]), ("description", []), ("cn", ["t"])] "cn" ["t"]
      rfl (by decide) (by decide)).2 (by decide)⟩

/-- Claim C3: when the desired map carries exactly the state's attribute names
with per-name set-equal value lists and the write-once version token is
unchanged, `Update` builds an empty operation list and issues no modify call. -/
theorem update_noop_no_wire_traffic (enc : EncFun) (inp : UpdateInput) (m : Bool)
    (hver : versionChanged inp.planVer inp.stateVer = false)
    (hplan : inp.planAttrs.all
      (fun kv => !changedAttr inp.stateAttrs kv.1 kv.2) = true)
    (hstate : inp.stateAttrs.all
      (fun kv => (lookupAttr inp.planAttrs kv.1).isSome) = true) :
    (ldapUpdate enc inp m).ops = [] ∧ (ldapUpdate enc inp m).modifyCalled = false := by
  have hattrs := updateDesiredAttrs_of_version_eq enc inp hver
  have hops : updateOps inp.planAttrs inp.stateAttrs = [] := by
    unfold updateOps
    rw [replaceOrDeleteOps_eq_nil inp.stateAttrs inp.planAttrs hplan,
      removeOps_eq_nil inp.planAttrs inp.stateAttrs hstate]
    rfl
  rw [ldapUpdate_eq_of_ok enc inp m inp.planAttrs hattrs]
  rw [hops]
  exact ⟨rfl, rfl⟩

/-- Witness for C3: a state-permuted multi-valued attribute and an unchanged
token produce no operations and no modify call. -/
theorem update_noop_no_wire_traffic_witness :
    (ldapUpdate utf16leEncoder
      ⟨[("member", ["u1", "u2", "u3"])], some 1, [("member", ["u3", "u1", "u2"])], some 1,
        some [("userPassword", ["x"])]⟩ false).ops = [] ∧
    (ldapUpdate utf16leEncoder
      ⟨[("member", ["u1", "u2", "u3"])], some 1, [("member", ["u3", "u1", "u2"])], some 1,
        some [("userPassword", ["x"])]⟩ false).modifyCalled = false :=
  update_noop_no_wire_traffic utf16leEncoder
    ⟨[("member", ["u1", "u2", "u3"])], some 1, [("member", ["u3", "u1", "u2"])], some 1,
      some [("userPassword", ["x"])]⟩ false (by decide) (by decide) (by decide)

/-- Claim C4: every attribute name present in the state map but absent from
the desired map built by `Update` gets a `Delete(name)` operation. -/
theorem update_deletes_dropped_attrs (enc : EncFun) (inp : UpdateInput) (m : Bool)
    (attributes : AttrMap) (k : String) (vs : List String)
    (hattrs : updateDesiredAttrs enc inp = Except.ok attributes)
    (hstate : (k, vs) ∈ inp.stateAttrs)
    (habs : lookupAttr attributes k = none) :
    LdapOp.delete k ∈ (ldapUpdate enc inp m).ops := by
  rw [ldapUpdate_eq_of_ok enc inp m attributes hattrs]
  unfold updateOps
  exact List.mem_append_right _ (delete_mem_removeOps attributes inp.stateAttrs k vs hstate habs)

/-- Witness for C4: dropping `description` from the configuration emits its
delete. -/
theorem update_deletes_dropped_attrs_witness :
    LdapOp.delete "description" ∈
      (ldapUpdate utf16leEncoder
        ⟨[("cn", ["t"])], none, [("cn", ["t"]), ("description", ["old"])], none, none⟩
        true).ops :=
  update_deletes_dropped_attrs utf16leEncoder
    ⟨[("cn", ["t"])], none, [("cn", ["t"]), ("description", ["old"])], none, none⟩
    true [("cn", ["t"])] "description" ["old"] rfl (by decide) (by decide)

/-- Claim C5: the write-only payload is merged into the outgoing update only
when the requested version token differs from the one recorded in state:
`versionChanged t t` is false for every token, and with equal tokens the
desired map is exactly the plan's and the whole update behaves as if no
write-only payload were configured. -/
theorem writeonce_gate_version_equal (enc : EncFun) (inp : UpdateInput) (m : Bool)
    (t : Option Int) (heq : inp.planVer = inp.stateVer) :
    versionChanged t t = false ∧
    updateDesiredAttrs enc inp = Except.ok inp.planAttrs ∧
    ldapUpdate enc inp m =
      ldapUpdate enc ⟨inp.planAttrs, inp.planVer, inp.stateAttrs, inp.stateVer, none⟩ m := by
  have hver : versionChanged inp.planVer inp.stateVer = false := by
    unfold versionChanged
    rw [heq]
    simp
  refine ⟨by unfold versionChanged; simp, updateDesiredAttrs_of_version_eq enc inp hver, ?_⟩
  rw [ldapUpdate_eq_of_ok enc inp m inp.planAttrs (updateDesiredAttrs_of_version_eq enc inp hver)]
  rw [ldapUpdate_eq_of_ok enc ⟨inp.planAttrs, inp.planVer, inp.stateAttrs, inp.stateVer, none⟩ m
    inp.planAttrs rfl]

/-- Witness for C5: with `lastToken = requestedToken = 1` and a
`userPassword` payload, the update equals the payload-free update, so nothing
is transmitted for the write-once attribute. -/
theorem writeonce_gate_version_equal_witness :
    versionChanged (some 1) (some 1) = false ∧
    updateDesiredAttrs utf16leEncoder
      ⟨[("cn", ["t"])], some 1, [("cn", ["t"])], some 1, some [("userPassword", ["x"])]⟩ =
      Except.ok [("cn", ["t"])] ∧
    ldapUpdate utf16leEncoder
      ⟨[("cn", ["t"])], some 1, [("cn", ["t"])], some 1, some [("userPassword", ["x"])]⟩ true =
      ldapUpdate utf16leEncoder ⟨[("cn", ["t"])], some 1, [("cn", ["t"])], some 1, none⟩ true :=
  writeonce_gate_version_equal utf16leEncoder
    ⟨[("cn", ["t"])], some 1, [("cn", ["t"])], some 1, some [("userPassword", ["x"])]⟩
    true (some 1) rfl

/-- Claim C6: when the modify call of an `Update` cycle fails, the persisted
state — the attribute map and the recorded write-once version token — is left
unchanged, so the next cycle retries the transmission; the plan's new token is
recorded only when the transmission succeeds. -/
theorem update_failure_preserves_state (enc : EncFun) (inp : UpdateInput)
    (hcalled : (ldapUpdate enc inp false).modifyCalled = true) :
    (ldapUpdate enc inp false).persisted = ⟨inp.stateAttrs, inp.stateVer⟩ ∧
    (ldapUpdate enc inp true).persisted = ⟨inp.planAttrs, inp.planVer⟩ := by
  unfold ldapUpdate at hcalled ⊢
  cases hd : updateDesiredAttrs enc inp with
  | error e =>
    rw [hd] at hcalled
    cases hcalled
  | ok attributes =>
    rw [hd] at hcalled
    dsimp only at hcalled ⊢
    cases he : (updateOps attributes inp.stateAttrs).isEmpty with
    | true => rw [he] at hcalled; simp at hcalled
    | false => constructor <;> simp [he]

/-- Witness for C6: a failing modify on a real change keeps the prior
attribute map and the prior version token, while a successful one records the
plan and its new token. -/
theorem update_failure_preserves_state_witness :
    (ldapUpdate utf16leEncoder
      ⟨[("mail", ["new@x"])], some 2, [("mail", ["old@x"])], some 1, none⟩ false).persisted =
      ⟨[("mail", ["old@x"])], some 1⟩ ∧
    (ldapUpdate utf16leEncoder
      ⟨[("mail", ["new@x"])], some 2, [("mail", ["old@x"])], some 1, none⟩ true).persisted =
      ⟨[("mail", ["new@x"])], some 2⟩ :=
  update_failure_preserves_state utf16leEncoder
    ⟨[("mail", ["new@x"])], some 2, [("mail", ["old@x"])], some 1, none⟩ (by decide)

/-- Claim C8: an encoding failure of the `unicodePwd` codec aborts the cycle
before any network call: `Create` issues no add request and `Update` issues no
modify call, builds no operations, and leaves the persisted state unchanged. -/
theorem encoding_error_aborts_cycle (enc : EncFun) (planAttrs : AttrMap)
    (configWO : Option AttrMap) (inp : UpdateInput) (m : Bool) (e1 e2 : String)
    (hc : createDesiredAttrs enc planAttrs configWO = Except.error e1)
    (hu : updateDesiredAttrs enc inp = Except.error e2) :
    (ldapCreate enc planAttrs configWO).addCalled = false ∧
    (ldapCreate enc planAttrs configWO).aborted = true ∧
    (ldapUpdate enc inp m).modifyCalled = false ∧
    (ldapUpdate enc inp m).ops = [] ∧
    (ldapUpdate enc inp m).aborted = true ∧
    (ldapUpdate enc inp m).persisted = ⟨inp.stateAttrs, inp.stateVer⟩ := by
  unfold ldapCreate ldapUpdate
  rw [hc, hu]
  exact ⟨rfl, rfl, rfl, rfl, rfl, rfl⟩

/-- Witness for C8: a transcoder that rejects its input makes both `Create`
and `Update` (with a changed token and a `unicodePwd` payload) abort with no
network call. -/
theorem encoding_error_aborts_cycle_witness :
    (ldapCreate (fun _ => Except.error "unencodable") [("unicodePwd", ["pw"])] none).addCalled =
      false ∧
    (ldapUpdate (fun _ => Except.error "unencodable")
      ⟨[("cn", ["t"])], some 2, [("cn", ["t"])], some 1, some [("unicodePwd", ["pw"])]⟩
      true).modifyCalled = false ∧
    (ldapUpdate (fun _ => Except.error "unencodable")
      ⟨[("cn", ["t"])], some 2, [("cn", ["t"])], some 1, some [("unicodePwd", ["pw"])]⟩
      true).persisted = ⟨[("cn", ["t"])], some 1⟩ := by
  have h := encoding_error_aborts_cycle (fun _ => Except.error "unencodable")
    [("unicodePwd", ["pw"])] none
    ⟨[("cn", ["t"])], some 2, [("cn", ["t"])], some 1, some [("unicodePwd", ["pw"])]⟩
    true "unencodable" "unencodable" rfl rfl
  exact ⟨h.1, h.2.2.1, h.2.2.2.2.2⟩

/-- Counterexample to C7 as stated: with two `unicodePwd` values, the codec is
not invoked once per value — the resulting value list is not the per-value
encoding of `["a", "b"]` (the code encodes only the first value and drops the
rest). -/
theorem process_unicodePwd_not_each_value :
    lookupAttr (exceptAttrs (ProcessUnicodePwd utf16leEncoder [("unicodePwd", ["a", "b"])]))
      "unicodePwd" ≠
      some (["a", "b"].map (fun v => byteStr (utf16leBytes ("\"" ++ v ++ "\"")))) := by
  decide

/-- Claim C7 (amended): when the outgoing attribute map holds `unicodePwd`
with a non-empty value list, the codec is invoked once, on the first value
only; the attribute's value list is replaced by that single encoded result
(for the reference transcoder, the UTF-16LE bytes of the value wrapped in
double quotes) and every other attribute's values pass through unchanged. -/
theorem process_unicodePwd_encodes_first_value (enc : EncFun) (attrs : AttrMap) (v : String)
    (vs : List String) (encoded : String)
    (hlook : lookupAttr attrs "unicodePwd" = some (v :: vs))
    (henc : encodeUnicodePwd enc v = Except.ok encoded) :
    ProcessUnicodePwd enc attrs = Except.ok (insertAttr attrs "unicodePwd" [encoded]) ∧
    ∀ k, k ≠ "unicodePwd" →
      lookupAttr (insertAttr attrs "unicodePwd" [encoded]) k = lookupAttr attrs k := by
  constructor
  · unfold ProcessUnicodePwd
    rw [hlook]
    dsimp only
    rw [henc]
  · intro k hk
    exact lookupAttr_insertAttr_ne attrs "unicodePwd" k [encoded] (Ne.symm hk)

/-- Witness for the amended C7: a single-valued password is encoded to the
quote-wrapped UTF-16LE byte string and the `cn` attribute is untouched. -/
theorem process_unicodePwd_encodes_first_value_witness :
    ProcessUnicodePwd utf16leEncoder [("unicodePwd", ["pw"]), ("cn", ["x"])] =
      Except.ok (insertAttr [("unicodePwd", ["pw"]), ("cn", ["x"])] "unicodePwd"
        [byteStr (utf16leBytes "\"pw\"")]) ∧
    lookupAttr (insertAttr [("unicodePwd", ["pw"]), ("cn", ["x"])] "unicodePwd"
      [byteStr (utf16leBytes "\"pw\"")]) "cn" =
      lookupAttr [("unicodePwd", ["pw"]), ("cn", ["x"])] "cn" := by
  have h := process_unicodePwd_encodes_first_value utf16leEncoder
    [("unicodePwd", ["pw"]), ("cn", ["x"])] "pw" [] (byteStr (utf16leBytes "\"pw\"")) rfl rfl
  exact ⟨h.1, h.2 "cn" (by decide)⟩

/-- A successful lookup survives the normalization loop untouched. -/
theorem lookupAttr_fillRequested_of_some (rs : List String) (acc : AttrMap) (k : String)
    (v : List String) (h : lookupAttr acc k = some v) :
    lookupAttr (fillRequested acc rs) k = some v := by
  induction rs generalizing acc with
  | nil => exact h
  | cons ra rest ih =>
    by_cases hs : (lookupAttr acc ra).isSome = true
    · rw [fillRequested, if_pos hs]
      exact ih acc h
    · rw [fillRequested, if_neg hs]
      apply ih
      by_cases hk : ra = k
      · subst hk
        rw [h] at hs
        cases hs rfl
      · rw [lookupAttr_insertAttr_ne acc ra k [] hk]
        exact h

/-- A requested name whose lookup is still empty ends up mapped to the empty
list by the normalization loop. -/
theorem lookupAttr_fillRequested_of_mem (rs : List String) (acc : AttrMap) (k : String)
    (hk : k ∈ rs) (h : lookupAttr acc k = none) :
    lookupAttr (fillRequested acc rs) k = some [] := by
  induction rs generalizing acc with
  | nil => cases hk
  | cons ra rest ih =>
    by_cases heq : ra = k
    · subst heq
      have hs : ¬ (lookupAttr acc ra).isSome = true := by
        rw [h]
        intro hc
        cases hc
      rw [fillRequested, if_neg hs]
      exact lookupAttr_fillRequested_of_some rest _ ra []
        (lookupAttr_insertAttr_self acc ra [])
    · have hk' : k ∈ rest := by
        rcases List.mem_cons.mp hk with h1 | h1
        · exact absurd h1.symm heq
        · exact h1
      by_cases hs : (lookupAttr acc ra).isSome = true
      · rw [fillRequested, if_pos hs]
        exact ih acc hk' h
      · rw [fillRequested, if_neg hs]
        apply ih _ hk'
        rw [lookupAttr_insertAttr_ne acc ra k [] heq]
        exact h

/-- Folding response attributes never materializes a name absent from the
response. -/
theorem lookupAttr_foldl_insert_none (l : List (String × List String)) (acc : AttrMap)
    (k : String) (hacc : lookupAttr acc k = none)
    (h : l.all (fun kv => kv.1 != k) = true) :
    lookupAttr (l.foldl (fun acc kv => insertAttr acc kv.1 kv.2) acc) k = none := by
  induction l generalizing acc with
  | nil => exact hacc
  | cons kv rest ih =>
    obtain ⟨k0, v0⟩ := kv
    simp only [List.all_cons, Bool.and_eq_true, bne_iff_ne, ne_eq] at h
    rw [List.foldl_cons]
    apply ih
    · rw [lookupAttr_insertAttr_ne acc k0 k v0 h.1]
      exact hacc
    · simp only [List.all_eq_true] at h ⊢
      exact h.2

/-- Claim C9: every attribute name requested from the directory but absent
from the search response is normalized by `MarshalLdapResults` to a present,
empty value list — never left absent. -/
theorem read_normalizes_missing_attrs (entryAttrs : List (String × List String))
    (requested : List String) (ra : String) (hreq : ra ∈ requested)
    (habs : entryAttrs.all (fun kv => kv.1 != ra) = true) :
    lookupAttr (marshalEntryAttrs entryAttrs requested) ra = some [] := by
  unfold marshalEntryAttrs
  apply lookupAttr_fillRequested_of_mem requested _ ra hreq
  exact lookupAttr_foldl_insert_none entryAttrs [] ra rfl habs

/-- Witness for C9: `mail` is requested, missing from the response, and comes
back as a present empty list. -/
theorem read_normalizes_missing_attrs_witness :
    lookupAttr (marshalEntryAttrs [("objectClass", ["top", "person"])] ["objectClass", "mail"])
      "mail" = some [] :=
  read_normalizes_missing_attrs [("objectClass", ["top", "person"])] ["objectClass", "mail"]
    "mail" (by decide) (by decide)

/-- Claim C10 is false of the code: on the branch where converting an entry's
attributes yields error diagnostics, the source indexes `diags[len(diags)]`,
one past the end — the access is out of range for every non-empty diagnostics
list, and the marshalling of a failing entry panics instead of returning an
error value. -/
theorem marshal_diag_index_out_of_range :
    extractDiagDetail ["attribute conversion failed"] = none ∧
    MarshalLdapResults (fun _ => Except.error ["attribute conversion failed"])
      [[("cn", ["x"])]] ["cn"] = MarshalOutcome.panicked := by
  constructor
  · rfl
  · rfl
